import Mathlib

/- Shallow embedding of the Jenkins dashboard core:
   the URL resolver, report fetcher and batch aggregator from
   src/services/jenkinsApi.ts (JenkinsApiService), and the three metrics
   derivers from src/components/Analysis.tsx.  TypeScript numbers that hold
   counts or millisecond timestamps are modelled as Nat, build numbers as Int
   (JS parseInt can yield negative values), and derived percentage rates as ℚ
   (the source computes them with JS number arithmetic; the embedding uses
   exact rational arithmetic for the same formulas). -/

set_option maxHeartbeats 1000000

/- ---------------------------------------------------------------------------
   Data model, from src/types/index.ts.  Fields never read by the embedded
   functions (uuid, fullName, statusDetails, stage, steps, description texts,
   start/stop of a result, ...) are omitted. -/

/-- Status of one Allure test result (AllureResult.status in types/index.ts). -/
inductive AStatus where
  | passed
  | failed
  | broken
  | skipped
deriving DecidableEq

/-- One Allure test result; only the fields the derivers read. -/
structure AllureResult where
  name : String
  status : AStatus
deriving DecidableEq

/-- Aggregate counts for one build (AllureSummary in types/index.ts). -/
structure AllureSummary where
  total : Nat
  passed : Nat
  failed : Nat
  broken : Nat
  skipped : Nat
  duration : Nat
  startTime : Nat
  endTime : Nat
deriving DecidableEq

/-- One configured build pointer (JenkinsBuildConfig in types/index.ts). -/
structure JenkinsBuildConfig where
  name : String
  buildUrl : String
  jobName : String
  buildNumber : Int
  description : Option String
  environment : Option String
  tags : Option (List String)
deriving DecidableEq

/-- Status of one fetched report record (AllureReportData.status). -/
inductive RStatus where
  | success
  | error
  | loading
deriving DecidableEq

/-- One fetched report record (AllureReportData in types/index.ts).
    lastUpdated is the `new Date()` value in milliseconds. -/
structure AllureReportData where
  buildConfig : JenkinsBuildConfig
  summary : Option AllureSummary
  results : List AllureResult
  reportUrl : String
  lastUpdated : Nat
  status : RStatus
  errorMessage : Option String
deriving DecidableEq

/- ---------------------------------------------------------------------------
   Platform primitives used by parseBuildUrl: ECMAScript parseInt and the
   WHATWG URL constructor.  These are not repository code; they are modelled
   here so the resolver can be embedded.  parseInt is modelled exactly as in
   the ECMAScript definition for an undefined radix (skip whitespace, optional
   sign, optional 0x/0X hex prefix, longest digit prefix, NaN when no digit),
   idealized to exact integers.  The URL constructor is modelled only as far
   as parseBuildUrl consumes it: a scheme://host prefix followed by the path;
   query/fragment splitting and full WHATWG normalization are not modelled. -/

/-- Value of a digit character under the given radix, as ECMAScript parseInt
    reads digits (0-9, then letters case-insensitively). -/
def jsDigitVal (radix : Nat) (c : Char) : Option Nat :=
  let v : Option Nat :=
    if '0' ≤ c ∧ c ≤ '9' then some (c.toNat - '0'.toNat)
    else if 'a' ≤ c ∧ c ≤ 'z' then some (c.toNat - 'a'.toNat + 10)
    else if 'A' ≤ c ∧ c ≤ 'Z' then some (c.toNat - 'A'.toNat + 10)
    else none
  match v with
  | some d => if d < radix then some d else none
  | none => none

/-- Accumulate the longest prefix of radix digits; none when no digit at all
    has been consumed (the NaN case of parseInt). -/
def jsDigitsLoop (radix : Nat) : List Char → Option Nat → Option Nat
  | [], acc => acc
  | c :: cs, acc =>
    match jsDigitVal radix c with
    | some d => jsDigitsLoop radix cs (some (acc.getD 0 * radix + d))
    | none => acc

/-- Whitespace skipped by parseInt (the common StrWhiteSpace characters). -/
def jsWhitespace (c : Char) : Bool :=
  c = ' ' || c = '\t' || c = '\n' || c = '\r' || c = Char.ofNat 12 || c = Char.ofNat 11

/-- ECMAScript parseInt with an unspecified radix, idealized to exact
    integers; none models NaN. -/
def jsParseInt (s : String) : Option Int :=
  let cs := s.data.dropWhile jsWhitespace
  let signAndRest : Int × List Char :=
    match cs with
    | '-' :: r => (-1, r)
    | '+' :: r => (1, r)
    | r => (1, r)
  let radixAndRest : Nat × List Char :=
    match signAndRest.2 with
    | '0' :: 'x' :: r => (16, r)
    | '0' :: 'X' :: r => (16, r)
    | r => (10, r)
  match jsDigitsLoop radixAndRest.1 radixAndRest.2 none with
  | some n => some (signAndRest.1 * n)
  | none => none

/-- The parts of a parsed URL that parseBuildUrl reads. -/
structure UrlParts where
  scheme : String
  host : String
  pathname : String
deriving DecidableEq

/-- JS String.prototype.split on a one-character separator, over the char
    list of the string. -/
def splitChar (c : Char) : List Char → List (List Char)
  | [] => [[]]
  | x :: xs =>
    if x = c then [] :: splitChar c xs
    else
      match splitChar c xs with
      | [] => [[x]]
      | y :: ys => (x :: y) :: ys

/-- Break a character list at the first occurrence of "://". -/
def breakSchemeSep : List Char → Option (List Char × List Char)
  | ':' :: '/' :: '/' :: rest => some ([], rest)
  | c :: rest =>
    match breakSchemeSep rest with
    | none => none
    | some (pre, post) => some (c :: pre, post)
  | [] => none

/-- Model of `new URL(s)`: none models the constructor throwing on a
    malformed URL.  A nonempty scheme before "://" and a nonempty host are
    required; the pathname of "scheme://host" alone is "/". -/
def urlParse (s : String) : Option UrlParts :=
  match breakSchemeSep s.data with
  | none => none
  | some (schemeCs, restCs) =>
    if schemeCs = [] || restCs = [] then none
    else
      match splitChar '/' restCs with
      | [] => none
      | host :: pathComps =>
        if host = [] then none
        else
          let p := String.join (pathComps.map (fun cs => "/" ++ String.mk cs))
          some ⟨String.mk schemeCs, String.mk host, if p = "" then "/" else p⟩

/- ---------------------------------------------------------------------------
   URL resolver: JenkinsApiService.parseBuildUrl (jenkinsApi.ts). -/

/-- Path segments of a parsed URL: url.pathname.split('/').filter(Boolean). -/
def pathSegments (u : UrlParts) : List String :=
  ((splitChar '/' u.pathname.data).map String.mk).filter (fun p => p ≠ "")

/-- JenkinsApiService.parseBuildUrl: extract { jobName, buildNumber } from a
    Jenkins build URL, or null.  The catch on a malformed URL returns null. -/
def parseBuildUrl (buildUrl : String) : Option (String × Int) :=
  match urlParse buildUrl with
  | none => none
  | some u =>
    let pathParts := pathSegments u
    match pathParts.findIdx? (fun p => p == "job") with
    | none => none
    | some jobIndex =>
      if h : jobIndex + 2 < pathParts.length then
        let jobName := pathParts.get ⟨jobIndex + 1, by omega⟩
        let numSeg := pathParts.get ⟨jobIndex + 2, h⟩
        match jsParseInt numSeg with
        | some buildNumber => some (jobName, buildNumber)
        | none => none
      else none

/- ---------------------------------------------------------------------------
   encodeURIComponent, modelled from the ECMAScript definition: unreserved
   characters pass through, every other character is percent-encoded per
   UTF-8 byte. -/

/-- UTF-8 bytes of a code point. -/
def utf8Bytes (n : Nat) : List Nat :=
  if n < 128 then [n]
  else if n < 2048 then [192 + n / 64, 128 + n % 64]
  else if n < 65536 then [224 + n / 4096, 128 + (n / 64) % 64, 128 + n % 64]
  else [240 + n / 262144, 128 + (n / 4096) % 64, 128 + (n / 64) % 64, 128 + n % 64]

/-- Uppercase hexadecimal digit. -/
def hexDigitChar (n : Nat) : Char :=
  if n < 10 then Char.ofNat (48 + n) else Char.ofNat (65 + n - 10)

/-- Percent-encoding of one byte. -/
def pctByte (b : Nat) : String :=
  "%" ++ String.mk [hexDigitChar (b / 16), hexDigitChar (b % 16)]

/-- Characters encodeURIComponent leaves unescaped. -/
def isUriUnreserved (c : Char) : Bool :=
  c.isAlpha || c.isDigit ||
    c = '-' || c = '_' || c = '.' || c = '!' || c = '~' || c = '*' ||
    c = Char.ofNat 39 || c = '(' || c = ')'

/-- ECMAScript encodeURIComponent. -/
def encodeURIComponent (s : String) : String :=
  String.join (s.data.map (fun c =>
    if isUriUnreserved c then String.singleton c
    else String.join ((utf8Bytes c.toNat).map pctByte)))

/- ---------------------------------------------------------------------------
   Report fetcher: JenkinsApiService (jenkinsApi.ts).  The two network reads
   are modelled as oracles keyed by the resolved jobName and buildNumber:
   none models any failed read (timeout, non-2xx status, rejected promise).
   baseURL and now model this.baseURL and the `new Date()` taken during the
   fetch; jsessionId is carried for fidelity but never read by the embedded
   functions (it only feeds the Cookie header). -/

structure FetchEnv where
  baseURL : String
  jsessionId : String
  summaryRead : String → Int → Option AllureSummary
  resultsRead : String → Int → Option (List AllureResult)
  now : Nat

/-- JenkinsApiService.getAllureSummary: null when the URL does not resolve
    (its own catch swallows the thrown error) or when the read fails. -/
def getAllureSummary (env : FetchEnv) (buildUrl : String) : Option AllureSummary :=
  match parseBuildUrl buildUrl with
  | none => none
  | some (jobName, buildNumber) => env.summaryRead jobName buildNumber

/-- JenkinsApiService.getAllureResults: the empty list when the URL does not
    resolve or when the read fails (its own catch returns []). -/
def getAllureResults (env : FetchEnv) (buildUrl : String) : List AllureResult :=
  match parseBuildUrl buildUrl with
  | none => []
  | some (jobName, buildNumber) => (env.resultsRead jobName buildNumber).getD []

/-- JenkinsApiService.getAllureReportUrl: the derived report link, or the
    input URL itself when it does not resolve. -/
def getAllureReportUrl (env : FetchEnv) (buildUrl : String) : String :=
  match parseBuildUrl buildUrl with
  | none => buildUrl
  | some (jobName, buildNumber) =>
    env.baseURL ++ "/job/" ++ encodeURIComponent jobName ++ "/" ++
      toString buildNumber ++ "/allure/"

/-- JenkinsApiService.getAllureReportData.  The catch branch of the source
    (status error with an errorMessage) is unreachable: getAllureSummary and
    getAllureResults both catch internally and never reject, and the other
    awaited expressions are total, so the embedded function is the try branch. -/
def getAllureReportData (env : FetchEnv) (buildConfig : JenkinsBuildConfig) :
    AllureReportData :=
  { buildConfig := buildConfig
    summary := getAllureSummary env buildConfig.buildUrl
    results := getAllureResults env buildConfig.buildUrl
    reportUrl := getAllureReportUrl env buildConfig.buildUrl
    lastUpdated := env.now
    status := RStatus.success
    errorMessage := none }

/-- JenkinsApiService.getAllureReportsForBuilds: Promise.all over the mapped
    fetches; Promise.all preserves input order and, as no mapped promise ever
    rejects, always settles with one record per config. -/
def getAllureReportsForBuilds (env : FetchEnv) (buildConfigs : List JenkinsBuildConfig) :
    List AllureReportData :=
  buildConfigs.map (getAllureReportData env)

/- ---------------------------------------------------------------------------
   Metrics derivers, from src/components/Analysis.tsx.  The source functions
   close over the fetched allureReports array; the embedding passes that array
   as the argument.  The JS reduce-into-an-object grouping is modelled as a
   fold over an association list: objects with string keys enumerate entries
   in insertion order, which the association list preserves, and Array.sort
   is a stable sort, modelled by List.mergeSort. -/

/-- One step of the reduce-into-an-object grouping: push v onto the list at
    key k, creating the key at the end on first use. -/
def upsert {κ α : Type} [DecidableEq κ] (k : κ) (v : α) :
    List (κ × List α) → List (κ × List α)
  | [] => [(k, [v])]
  | (k', vs) :: rest =>
    if k' = k then (k', vs ++ [v]) :: rest else (k', vs) :: upsert k v rest

/-- Grouping by a key, entries in first-occurrence (insertion) order. -/
def groupByKey {κ α : Type} [DecidableEq κ] (key : α → κ) (l : List α) :
    List (κ × List α) :=
  l.foldl (fun acc a => upsert (key a) a acc) []

/-- One step of a stable insertion sort: a is inserted after every element
    that strictly precedes it under le, and before the first element that
    does not (so ties keep input order, as Array.prototype.sort guarantees). -/
def insertStable {α : Type} (le : α → α → Bool) (a : α) : List α → List α
  | [] => [a]
  | b :: bs =>
    if le b a && !(le a b) then b :: insertStable le a bs else a :: b :: bs

/-- Stable sort modelling Array.prototype.sort with a consistent comparator:
    cmp(a,b) puts a before b exactly when le a b, and equal elements keep
    their input order. -/
def stableSort {α : Type} (le : α → α → Bool) : List α → List α
  | [] => []
  | a :: as => insertStable le a (stableSort le as)

/-- Calendar-day key of a millisecond timestamp.  The source formats
    lastUpdated as a yyyy-MM-dd string; grouping by that string and ordering
    the groups by localeCompare is grouping by the day index and ordering
    numerically, which this models (day boundaries taken at UTC). -/
def dateKey (millis : Nat) : Nat := millis / 86400000

/- The percentage formulas are JS number arithmetic in the source; the
   embedding computes them exactly over ℚ.  The Batteries field operations on
   ℚ are marked irreducible, which blocks kernel evaluation on concrete
   inputs, so the embedding uses the following wrappers, proved equal to the
   field operations in qMul_eq, qDiv_eq and jsRound_eq below. -/

/-- Multiplication on ℚ, written over Rat.divInt; equal to a * b. -/
def qMul (a b : ℚ) : ℚ := Rat.divInt (a.num * b.num) (a.den * b.den)

/-- Division on ℚ, written over Rat.divInt; equal to a / b. -/
def qDiv (a b : ℚ) : ℚ := Rat.divInt (a.num * b.den) (a.den * b.num)

/-- Math.round: round half toward positive infinity, i.e. the floor of
    q + 1/2, written over Rat.divInt. -/
def jsRound (q : ℚ) : Int := Rat.floor (Rat.divInt (2 * q.num + q.den) (2 * q.den))

/-- One point of the historical trend (HistoricalTrend in types/index.ts);
    date is the day key. -/
structure HistoricalTrend where
  date : Nat
  totalTests : Nat
  passedTests : Nat
  failedTests : Nat
  successRate : ℚ
deriving DecidableEq

/-- The accumulator of the aggregatedResults reduce. -/
structure Agg where
  total : Nat
  passed : Nat
  failed : Nat
deriving DecidableEq

/-- One step of the aggregatedResults reduce: add the summary counts when the
    record has a summary. -/
def aggStep (acc : Agg) (r : AllureReportData) : Agg :=
  match r.summary with
  | some s => ⟨acc.total + s.total, acc.passed + s.passed, acc.failed + s.failed⟩
  | none => acc

/-- The aggregatedResults reduce over one group of records. -/
def aggregateReports (reports : List AllureReportData) : Agg :=
  reports.foldl aggStep ⟨0, 0, 0⟩

/-- The map step of generateHistoricalTrendData: one trend point from one
    day group. -/
def mkTrendPoint (date : Nat) (reports : List AllureReportData) : HistoricalTrend :=
  let agg := aggregateReports reports
  let successRate : ℚ :=
    if agg.total > 0 then qMul (qDiv (agg.passed : ℚ) (agg.total : ℚ)) 100 else 0
  ⟨date, agg.total, agg.passed, agg.failed, qDiv (jsRound (qMul successRate 100) : ℚ) 100⟩

/-- The reportsByDate reduce: only records with a summary are pushed into a
    day group; records without a summary are skipped by the guard. -/
def trendGroups (reports : List AllureReportData) :
    List (Nat × List AllureReportData) :=
  reports.foldl
    (fun acc r => if r.summary.isSome then upsert (dateKey r.lastUpdated) r acc else acc)
    []

/-- Analysis.generateHistoricalTrendData.  The early return on an empty
    report list equals the pipeline value, so it is not a separate case. -/
def generateHistoricalTrendData (reports : List AllureReportData) :
    List HistoricalTrend :=
  (stableSort (fun p q => decide (p.1 ≤ q.1)) (trendGroups reports)).map
    (fun e => mkTrendPoint e.1 e.2)

/-- One flattened (testName, jobName, status, timestamp) tuple. -/
structure TestTuple where
  testName : String
  jobName : String
  status : AStatus
  timestamp : Nat
deriving DecidableEq

/-- The testResults flatMap of generateFlakyTestsData. -/
def testResults (reports : List AllureReportData) : List TestTuple :=
  reports.flatMap (fun report =>
    report.results.map (fun result =>
      ⟨result.name, report.buildConfig.jobName, result.status, report.lastUpdated⟩))

/-- The per-test accumulator object of the testStats reduce. -/
structure FlakyAcc where
  testName : String
  jobName : String
  totalRuns : Nat
  failures : Nat
  lastFailure : Option Nat
deriving DecidableEq

/-- A failing outcome for the flakiness tracker. -/
def isFailOutcome (s : AStatus) : Bool :=
  s = AStatus.failed || s = AStatus.broken

/-- The mutation body of the testStats reduce for one tuple: bump totalRuns;
    on a failing outcome bump failures and advance lastFailure when the new
    timestamp is strictly later. -/
def updateStat (t : TestTuple) (st : FlakyAcc) : FlakyAcc :=
  let st1 := { st with totalRuns := st.totalRuns + 1 }
  if isFailOutcome t.status then
    { st1 with
      failures := st1.failures + 1,
      lastFailure :=
        match st1.lastFailure with
        | none => some t.timestamp
        | some lf => if lf < t.timestamp then some t.timestamp else some lf }
  else st1

/-- The fresh stats object created on the first occurrence of a test name. -/
def initStat (t : TestTuple) : FlakyAcc :=
  ⟨t.testName, t.jobName, 0, 0, none⟩

/-- One step of the testStats reduce: create on first occurrence (at the end,
    as object insertion order does), then apply the mutation body. -/
def flakyUpsert (t : TestTuple) : List FlakyAcc → List FlakyAcc
  | [] => [updateStat t (initStat t)]
  | st :: rest =>
    if st.testName = t.testName then updateStat t st :: rest
    else st :: flakyUpsert t rest

/-- The testStats reduce over the flattened tuples; Object.values order is
    insertion order, which the list preserves. -/
def flakyStats (ts : List TestTuple) : List FlakyAcc :=
  ts.foldl (fun acc t => flakyUpsert t acc) []

/-- One ranked flaky test (FlakyTest in types/index.ts). -/
structure FlakyTest where
  testName : String
  jobName : String
  failureRate : ℚ
  totalRuns : Nat
  lastFailure : Nat
deriving DecidableEq

/-- The map step of generateFlakyTestsData.  The `lastFailure || new Date()`
    fallback is modelled as 0; it is unreachable for entries that pass the
    failures > 0 filter, since any failure sets lastFailure. -/
def mkFlakyEntry (st : FlakyAcc) : FlakyTest :=
  ⟨st.testName, st.jobName, qMul (qDiv (st.failures : ℚ) (st.totalRuns : ℚ)) 100,
    st.totalRuns, st.lastFailure.getD 0⟩

/-- Analysis.generateFlakyTestsData: filter to tests with at least one
    failure, map to entries, stable-sort descending by failureRate (the
    comparator b.failureRate - a.failureRate puts a before b exactly when
    b.failureRate ≤ a.failureRate, ties keeping input order), keep 10. -/
def generateFlakyTestsData (reports : List AllureReportData) : List FlakyTest :=
  ((stableSort (fun a b => decide (b.failureRate ≤ a.failureRate))
      (((flakyStats (testResults reports)).filter (fun st => st.failures > 0)).map
        mkFlakyEntry)).take 10)

/-- One row of the environment matrix (EnvironmentMatrix in types/index.ts). -/
structure EnvironmentMatrix where
  environment : String
  totalTests : Nat
  passedTests : Nat
  failedTests : Nat
  successRate : ℚ
deriving DecidableEq

/-- The grouping key of generateEnvironmentMatrixData:
    report.buildConfig.environment || 'default' (an absent or empty
    environment both fall back to the default key). -/
def envKeyOf (r : AllureReportData) : String :=
  match r.buildConfig.environment with
  | none => "default"
  | some e => if e = "" then "default" else e

/-- The map step of generateEnvironmentMatrixData. -/
def mkEnvEntry (env : String) (reports : List AllureReportData) : EnvironmentMatrix :=
  let agg := aggregateReports reports
  let successRate : ℚ :=
    if agg.total > 0 then qMul (qDiv (agg.passed : ℚ) (agg.total : ℚ)) 100 else 0
  ⟨env, agg.total, agg.passed, agg.failed, qDiv (jsRound (qMul successRate 100) : ℚ) 100⟩

/-- Analysis.generateEnvironmentMatrixData: group all records by environment
    key (records without a summary still join a group; they add nothing to
    the sums), one row per key, in first-occurrence order (unsorted). -/
def generateEnvironmentMatrixData (reports : List AllureReportData) :
    List EnvironmentMatrix :=
  (groupByKey envKeyOf reports).map (fun e => mkEnvEntry e.1 e.2)

/- ---------------------------------------------------------------------------
   Specification-side helper definitions: vocabulary used to state the claims
   about the functions above, independent of how they are implemented. -/

/-- First list bound to a key in an association list of groups ([] when the
    key is absent). -/
def lookupGroup {κ α : Type} [DecidableEq κ] (k : κ) (acc : List (κ × List α)) :
    List α :=
  ((acc.find? (fun e => decide (e.1 = k))).map (fun e => e.2)).getD []

/-- First stats object with the given test name. -/
def findStat (n : String) (acc : List FlakyAcc) : Option FlakyAcc :=
  acc.find? (fun st => decide (st.testName = n))

/-- Fold the per-tuple mutation body over a list of tuples. -/
def statFold (st : FlakyAcc) (occs : List TestTuple) : FlakyAcc :=
  occs.foldl (fun s t => updateStat t s) st

/-- Deduplication keeping first occurrences, with an already-seen set. -/
def dedupSeen (seen : List String) : List String → List String
  | [] => []
  | n :: ns => if n ∈ seen then dedupSeen seen ns else n :: dedupSeen (n :: seen) ns

/-- Index of the first flattened tuple carrying the given test name. -/
def firstOccIdx (ts : List TestTuple) (n : String) : Nat :=
  (ts.map (fun t => t.testName)).findIdx (fun x => decide (x = n))

/-- Number of observed runs of a test name across the flattened tuples. -/
def runsOf (ts : List TestTuple) (n : String) : Nat :=
  (ts.filter (fun t => decide (t.testName = n))).length

/-- Number of failing (failed or broken) runs of a test name. -/
def failsOf (ts : List TestTuple) (n : String) : Nat :=
  (ts.filter (fun t => decide (t.testName = n) && isFailOutcome t.status)).length

/-- The records that carry a summary and fall on the given day. -/
def dayRecords (rs : List AllureReportData) (d : Nat) : List AllureReportData :=
  rs.filter (fun r => r.summary.isSome && decide (dateKey r.lastUpdated = d))

/-- Sum of summary.total over records (0 for a record without a summary). -/
def sumTotals (l : List AllureReportData) : Nat :=
  (l.map (fun r => ((r.summary.map (fun s => s.total)).getD 0))).sum

/-- Sum of summary.passed over records. -/
def sumPassed (l : List AllureReportData) : Nat :=
  (l.map (fun r => ((r.summary.map (fun s => s.passed)).getD 0))).sum

/-- Sum of summary.failed over records. -/
def sumFailed (l : List AllureReportData) : Nat :=
  (l.map (fun r => ((r.summary.map (fun s => s.failed)).getD 0))).sum

/-- A string that parses as a non-negative integer, the reading of the claim
    about the build-number segment: nonempty and all decimal digits. -/
def isNonNegIntString (s : String) : Bool :=
  decide (s ≠ "") && s.data.all (fun c => c.isDigit)

/-- Success condition of the URL-resolver claim as stated: a well-formed URL
    whose path contains the literal segment "job" followed by at least two
    more segments, the second of which parses as a non-negative integer. -/
def claimC4Holds (s : String) : Bool :=
  match urlParse s with
  | none => false
  | some u =>
    let segs := pathSegments u
    (List.range segs.length).any (fun i =>
      decide (segs.getD i "" = "job") && decide (i + 2 < segs.length) &&
        isNonNegIntString (segs.getD (i + 2) ""))

/-- Ranking order claimed for the flakiness list: descending failure rate,
    ties broken by descending total-run count, then test name ascending. -/
def claimC6OrderOk (l : List FlakyTest) : Prop :=
  l.Pairwise (fun a b =>
    a.failureRate > b.failureRate ∨
      (a.failureRate = b.failureRate ∧
        (a.totalRuns > b.totalRuns ∨
          (a.totalRuns = b.totalRuns ∧ a.testName ≤ b.testName))))

/- ---------------------------------------------------------------------------
   Concrete inputs used by witnesses and counterexamples. -/

/-- A summary with the given total/passed/failed and zeroes elsewhere. -/
def mkSummary (t p f : Nat) : AllureSummary := ⟨t, p, f, 0, 0, 0, 0, 0⟩

/-- A resolvable build config for job "ui-tests", build 42. -/
def cfgUi : JenkinsBuildConfig :=
  ⟨"ui", "http://jenkins/job/ui-tests/42/", "ui-tests", 42, none, none, none⟩

/-- A build config whose buildUrl does not resolve. -/
def cfgBad : JenkinsBuildConfig :=
  ⟨"bad", "notaurl", "", 0, none, none, none⟩

/-- A fetch environment in which the summary read of ui-tests build 42
    succeeds with 10/8/2 and every detail read fails. -/
def envSummaryOnly : FetchEnv :=
  ⟨"http://jenkins", "sid",
    fun j n => if j = "ui-tests" ∧ n = 42 then some (mkSummary 10 8 2) else none,
    fun _ _ => none, 86400007⟩

/-- A fetch environment in which every read fails. -/
def envAllFail : FetchEnv :=
  ⟨"http://jenkins", "sid", fun _ _ => none, fun _ _ => none, 5⟩

/-- A report record on day 3 with no summary and no outcomes. -/
def trendCexRecord : AllureReportData :=
  ⟨cfgUi, none, [], "u", 3 * 86400000 + 5, RStatus.success, none⟩

/-- A report record on day 2 whose summary is 7 total / 5 passed / 2 failed. -/
def trendRecord75 : AllureReportData :=
  ⟨cfgUi, some (mkSummary 7 5 2), [], "u", 2 * 86400000 + 5, RStatus.success, none⟩

/-- The one trend point derived from trendRecord75. -/
def trendPoint75 : HistoricalTrend := ⟨2, 7, 5, 2, Rat.divInt 7143 100⟩

/-- The flakiness example of the claim: test A with 3 runs and 1 failure,
    test B with 5 runs and 3 failures, test C with 2 runs and 0 failures,
    all in one record of job "ui-tests" fetched on day 1. -/
def rsABC : List AllureReportData :=
  [⟨cfgUi, none,
    [⟨"A", AStatus.failed⟩, ⟨"A", AStatus.passed⟩, ⟨"A", AStatus.passed⟩,
     ⟨"B", AStatus.failed⟩, ⟨"B", AStatus.failed⟩, ⟨"B", AStatus.failed⟩,
     ⟨"B", AStatus.passed⟩, ⟨"B", AStatus.passed⟩,
     ⟨"C", AStatus.passed⟩, ⟨"C", AStatus.passed⟩],
    "u", 86400005, RStatus.success, none⟩]

/-- A tie-break input: test "z" (1 run, 1 failure, rate 100) occurs first,
    test "a" (2 runs, 2 failures, rate 100) occurs after it. -/
def rsTie : List AllureReportData :=
  [⟨cfgUi, none,
    [⟨"z", AStatus.failed⟩, ⟨"a", AStatus.broken⟩, ⟨"a", AStatus.failed⟩],
    "u", 86400005, RStatus.success, none⟩]

/-- Records of the same test name under two different job names: job "j1"
    (first, one passed run) then job "j2" (one failed run). -/
def cfgJob1 : JenkinsBuildConfig :=
  ⟨"c1", "http://jenkins/job/j1/1/", "j1", 1, none, none, none⟩

/-- Second job for the cross-job flakiness witness. -/
def cfgJob2 : JenkinsBuildConfig :=
  ⟨"c2", "http://jenkins/job/j2/1/", "j2", 1, none, none, none⟩

/-- Cross-job input: test "t" runs once (passed) in j1, once (failed) in j2. -/
def rsCrossJob : List AllureReportData :=
  [⟨cfgJob1, none, [⟨"t", AStatus.passed⟩], "u", 1, RStatus.success, none⟩,
   ⟨cfgJob2, none, [⟨"t", AStatus.failed⟩], "u", 2, RStatus.success, none⟩]

/- ---------------------------------------------------------------------------
   Lemmas about the grouping fold. -/

/-- Lookup skips a head entry with a different key. -/
theorem lookupGroup_cons_ne {κ α : Type} [DecidableEq κ] (k ke : κ) (vs : List α)
    (rest : List (κ × List α)) (h : ¬(ke = k)) :
    lookupGroup k ((ke, vs) :: rest) = lookupGroup k rest := by
  simp [lookupGroup, List.find?_cons, h]

/-- Lookup hits a head entry with the same key. -/
theorem lookupGroup_cons_eq {κ α : Type} [DecidableEq κ] (k : κ) (vs : List α)
    (rest : List (κ × List α)) :
    lookupGroup k ((k, vs) :: rest) = vs := by
  simp [lookupGroup, List.find?_cons]

/-- Looking up after an upsert: the upserted key gains v at the end, other
    keys are unchanged. -/
theorem lookupGroup_upsert {κ α : Type} [DecidableEq κ] (k k' : κ) (v : α)
    (acc : List (κ × List α)) :
    lookupGroup k (upsert k' v acc) =
      if k = k' then lookupGroup k acc ++ [v] else lookupGroup k acc := by
  induction acc with
  | nil =>
    by_cases h : k = k'
    · subst h; simp [upsert, lookupGroup]
    · have h2 : ¬(k' = k) := fun hh => h hh.symm
      simp [upsert, lookupGroup, h, h2]
  | cons e rest ih =>
    obtain ⟨ke, vs⟩ := e
    by_cases h1 : ke = k'
    · subst h1
      by_cases h2 : k = ke
      · subst h2
        simp [upsert, lookupGroup_cons_eq]
      · have h3 : ¬(ke = k) := fun hh => h2 hh.symm
        rw [if_neg h2]
        have hu : upsert ke v ((ke, vs) :: rest) = (ke, vs ++ [v]) :: rest := by
          simp [upsert]
        rw [hu, lookupGroup_cons_ne _ _ _ _ h3, lookupGroup_cons_ne _ _ _ _ h3]
    · by_cases h2 : ke = k
      · subst h2
        have h3 : ¬(ke = k') := h1
        rw [if_neg (fun hh => h3 hh)]
        simp only [upsert, if_neg h1]
        rw [lookupGroup_cons_eq, lookupGroup_cons_eq]
      · simp only [upsert, if_neg h1]
        rw [lookupGroup_cons_ne _ _ _ _ h2, lookupGroup_cons_ne _ _ _ _ h2]
        exact ih

/-- A fold whose step is guarded by a predicate equals the unguarded fold
    over the filtered list. -/
theorem foldl_guard_filter {α β : Type} (p : α → Bool) (g : β → α → β) :
    ∀ (l : List α) (acc : β),
      l.foldl (fun acc a => if p a then g acc a else acc) acc =
        (l.filter p).foldl g acc := by
  intro l
  induction l with
  | nil => intro acc; rfl
  | cons a l ih =>
    intro acc
    by_cases h : p a <;> simp [List.filter_cons, h, ih]

/-- Lookup in the grouping fold: the group of k collects, in order, the
    elements whose key is k. -/
theorem lookupGroup_foldl {κ α : Type} [DecidableEq κ] (key : α → κ) :
    ∀ (l : List α) (acc : List (κ × List α)) (k : κ),
      lookupGroup k (l.foldl (fun acc a => upsert (key a) a acc) acc) =
        lookupGroup k acc ++ (l.filter (fun a => decide (key a = k))) := by
  intro l
  induction l with
  | nil => simp
  | cons a l ih =>
    intro acc k
    simp only [List.foldl_cons]
    rw [ih, lookupGroup_upsert]
    by_cases h : key a = k
    · rw [if_pos h.symm]
      simp [List.filter_cons, h]
    · have h2 : ¬(k = key a) := fun hh => h hh.symm
      rw [if_neg h2]
      simp [List.filter_cons, h]

/-- Lookup in groupByKey. -/
theorem lookupGroup_groupByKey {κ α : Type} [DecidableEq κ] (key : α → κ)
    (l : List α) (k : κ) :
    lookupGroup k (groupByKey key l) = l.filter (fun a => decide (key a = k)) := by
  have := lookupGroup_foldl key l [] k
  simpa [groupByKey, lookupGroup] using this

/-- Upsert of an already-present key leaves the key list unchanged. -/
theorem keys_upsert_of_mem {κ α : Type} [DecidableEq κ] (k' : κ) (v : α)
    (acc : List (κ × List α)) (h : k' ∈ acc.map Prod.fst) :
    (upsert k' v acc).map Prod.fst = acc.map Prod.fst := by
  induction acc with
  | nil => simp at h
  | cons e rest ih =>
    obtain ⟨ke, vs⟩ := e
    by_cases h1 : ke = k'
    · simp [upsert, h1]
    · simp only [List.map_cons, List.mem_cons] at h
      rcases h with h | h
    
      · exact absurd h.symm h1
      · simp [upsert, h1, ih h]

/-- Upsert of a new key appends it to the key list. -/
theorem keys_upsert_of_not_mem {κ α : Type} [DecidableEq κ] (k' : κ) (v : α)
    (acc : List (κ × List α)) (h : k' ∉ acc.map Prod.fst) :
    (upsert k' v acc).map Prod.fst = acc.map Prod.fst ++ [k'] := by
  induction acc with
  | nil => simp [upsert]
  | cons e rest ih =>
    obtain ⟨ke, vs⟩ := e
    simp only [List.map_cons, List.mem_cons] at h
    push_neg at h
    by_cases h1 : ke = k'
    · exact absurd h1.symm h.1
    · simp [upsert, h1, ih h.2]

/-- The keys of the grouping fold stay duplicate-free. -/
theorem nodup_keys_foldl {κ α : Type} [DecidableEq κ] (key : α → κ) :
    ∀ (l : List α) (acc : List (κ × List α)),
      (acc.map Prod.fst).Nodup →
      ((l.foldl (fun acc a => upsert (key a) a acc) acc).map Prod.fst).Nodup := by
  intro l
  induction l with
  | nil => intro acc h; simpa using h
  | cons a l ih =>
    intro acc h
    simp only [List.foldl_cons]
    apply ih
    by_cases hm : key a ∈ acc.map Prod.fst
    · rwa [keys_upsert_of_mem _ _ _ hm]
    · rw [keys_upsert_of_not_mem _ _ _ hm]
      refine h.append (List.nodup_singleton _) ?_
      intro x hx hx'
      simp only [List.mem_singleton] at hx'
      subst hx'
      exact hm hx

/-- Membership in the keys of the grouping fold. -/
theorem mem_keys_foldl {κ α : Type} [DecidableEq κ] (key : α → κ) :
    ∀ (l : List α) (acc : List (κ × List α)) (k : κ),
      (k ∈ (l.foldl (fun acc a => upsert (key a) a acc) acc).map Prod.fst ↔
        k ∈ acc.map Prod.fst ∨ ∃ a ∈ l, key a = k) := by
  intro l
  induction l with
  | nil => simp
  | cons a l ih =>
    intro acc k
    simp only [List.foldl_cons]
    rw [ih]
    constructor
    · rintro (h | h)
      · by_cases hm : key a ∈ acc.map Prod.fst
        · rw [keys_upsert_of_mem _ _ _ hm] at h
          exact Or.inl h
        · rw [keys_upsert_of_not_mem _ _ _ hm] at h
          rcases List.mem_append.mp h with h | h
          · exact Or.inl h
          · simp only [List.mem_singleton] at h
            exact Or.inr ⟨a, by simp, h.symm⟩
      · obtain ⟨b, hb, hk⟩ := h
        exact Or.inr ⟨b, by simp [hb], hk⟩
    · rintro (h | h)
      · left
        by_cases hm : key a ∈ acc.map Prod.fst
        · rwa [keys_upsert_of_mem _ _ _ hm]
        · rw [keys_upsert_of_not_mem _ _ _ hm]
          exact List.mem_append.mpr (Or.inl h)
      · obtain ⟨b, hb, hk⟩ := h
        rcases List.mem_cons.mp hb with hb | hb
        · subst hb
          left
          by_cases hm : key b ∈ acc.map Prod.fst
          · rw [keys_upsert_of_mem _ _ _ hm]; rwa [← hk]
          · rw [keys_upsert_of_not_mem _ _ _ hm]
            exact List.mem_append.mpr (Or.inr (by simp [hk]))
        · exact Or.inr ⟨b, hb, hk⟩

/-- In an association list with duplicate-free keys, find? locates any
    member entry by its key. -/
theorem find?_eq_of_mem_nodup_keys {κ α : Type} [DecidableEq κ]
    (acc : List (κ × List α)) (h : (acc.map Prod.fst).Nodup) (k : κ) (vs : List α)
    (hm : (k, vs) ∈ acc) :
    acc.find? (fun e => decide (e.1 = k)) = some (k, vs) := by
  induction acc with
  | nil => simp at hm
  | cons e rest ih =>
    obtain ⟨ke, evs⟩ := e
    simp only [List.map_cons, List.nodup_cons] at h
    rcases List.mem_cons.mp hm with hm1 | hm1
    · rw [← hm1]
      simp [List.find?_cons]
    · have hne : ¬(ke = k) := by
        intro hh
        subst hh
        exact h.1 (by simpa using List.mem_map_of_mem Prod.fst hm1)
      rw [List.find?_cons, decide_eq_false hne]
      exact ih h.2 hm1

/-- Any entry of the grouping fold over the empty accumulator is exactly the
    filtered input at its key. -/
theorem entry_eq_filter_groupByKey {κ α : Type} [DecidableEq κ] (key : α → κ)
    (l : List α) (k : κ) (vs : List α) (hm : (k, vs) ∈ groupByKey key l) :
    vs = l.filter (fun a => decide (key a = k)) := by
  have hnd : ((groupByKey key l).map Prod.fst).Nodup :=
    nodup_keys_foldl key l [] (by simp)
  have hf := find?_eq_of_mem_nodup_keys (groupByKey key l) hnd k vs hm
  have hl := lookupGroup_groupByKey key l k
  rw [lookupGroup, hf] at hl
  simpa using hl

/- ---------------------------------------------------------------------------
   Lemmas about the stable sort. -/

/-- Membership in an insertion step. -/
theorem mem_insertStable {α : Type} (le : α → α → Bool) (a x : α) :
    ∀ l : List α, x ∈ insertStable le a l ↔ x = a ∨ x ∈ l := by
  intro l
  induction l with
  | nil => simp [insertStable]
  | cons b bs ih =>
    by_cases h : le b a && !(le a b)
    · rw [insertStable, if_pos h]
      rw [List.mem_cons, ih, List.mem_cons]
      tauto
    · rw [insertStable, if_neg h]
      rw [List.mem_cons, List.mem_cons]

/-- An insertion step is a permutation of pushing in front. -/
theorem insertStable_perm {α : Type} (le : α → α → Bool) (a : α) :
    ∀ l : List α, (insertStable le a l).Perm (a :: l) := by
  intro l
  induction l with
  | nil => simp [insertStable]
  | cons b bs ih =>
    by_cases h : le b a && !(le a b)
    · rw [insertStable, if_pos h]
      exact (List.Perm.cons b ih).trans (List.Perm.swap a b bs)
    · rw [insertStable, if_neg h]

/-- The stable sort permutes its input. -/
theorem stableSort_perm {α : Type} (le : α → α → Bool) :
    ∀ l : List α, (stableSort le l).Perm l := by
  intro l
  induction l with
  | nil => exact List.Perm.refl _
  | cons a as ih =>
    rw [stableSort]
    exact (insertStable_perm le a (stableSort le as)).trans (List.Perm.cons a ih)

/-- Membership in the stable sort. -/
theorem mem_stableSort {α : Type} (le : α → α → Bool) (x : α) (l : List α) :
    x ∈ stableSort le l ↔ x ∈ l :=
  (stableSort_perm le l).mem_iff

/-- Inserting a below everything it relates to by R keeps the refined order
    invariant: the output is pairwise le with ties inheriting R. -/
theorem pairwise_insertStable {α : Type} {le : α → α → Bool} {R : α → α → Prop}
    (trans : ∀ a b c, le a b = true → le b c = true → le a c = true)
    (total : ∀ a b, (le a b || le b a) = true) (a : α) :
    ∀ l : List α,
      l.Pairwise (fun x y => le x y = true ∧ (le y x = true → R x y)) →
      (∀ b ∈ l, R a b) →
      (insertStable le a l).Pairwise
        (fun x y => le x y = true ∧ (le y x = true → R x y)) := by
  intro l
  induction l with
  | nil =>
    intro _ _
    simp [insertStable]
  | cons b bs ih =>
    intro hl ha
    rw [List.pairwise_cons] at hl
    by_cases h : le b a && !(le a b)
    · rw [insertStable, if_pos h]
      rw [List.pairwise_cons]
      constructor
      · intro y hy
        rcases (mem_insertStable le a y bs).mp hy with hy | hy
        · subst hy
          rw [Bool.and_eq_true, Bool.not_eq_true'] at h
          refine ⟨h.1, ?_⟩
          intro hab
          rw [hab] at h
          exact absurd h.2 (by simp)
        · exact hl.1 y hy
      · exact ih hl.2 (fun c hc => ha c (List.mem_cons_of_mem _ hc))
    · rw [insertStable, if_neg h]
      rw [Bool.and_eq_true, Bool.not_eq_true'] at h
      have hab : le a b = true := by
        rcases Bool.or_eq_true_iff.mp (total a b) with h2 | h2
        · exact h2
        · rcases Bool.eq_false_or_eq_true (le a b) with h3 | h3
          · exact h3
          · exact absurd ⟨h2, h3⟩ h
      rw [List.pairwise_cons]
      constructor
      · intro y hy
        rcases List.mem_cons.mp hy with hy | hy
        · subst hy
          exact ⟨hab, fun hba => ha y (List.mem_cons_self _ _)⟩
        · refine ⟨trans a b y hab (hl.1 y hy).1, ?_⟩
          intro hya
          exact ha y (List.mem_cons_of_mem _ hy)
      · rw [List.pairwise_cons]
        exact hl

/-- Stability of the sort as a Pairwise statement: sorting a Pairwise-R list
    with a transitive total comparator yields a list that is pairwise le,
    with ties inheriting R from the input order. -/
theorem pairwise_stableSort {α : Type} {le : α → α → Bool} {R : α → α → Prop}
    (trans : ∀ a b c, le a b = true → le b c = true → le a c = true)
    (total : ∀ a b, (le a b || le b a) = true) :
    ∀ l : List α, l.Pairwise R →
      (stableSort le l).Pairwise
        (fun x y => le x y = true ∧ (le y x = true → R x y)) := by
  intro l
  induction l with
  | nil =>
    intro _
    simp [stableSort]
  | cons a as ih =>
    intro hR
    rw [List.pairwise_cons] at hR
    rw [stableSort]
    refine pairwise_insertStable trans total a _ (ih hR.2) ?_
    intro b hb
    exact hR.1 b ((mem_stableSort le b as).mp hb)

/-- Sortedness of the stable sort (the ties carry no extra information). -/
theorem sorted_stableSort {α : Type} {le : α → α → Bool}
    (trans : ∀ a b c, le a b = true → le b c = true → le a c = true)
    (total : ∀ a b, (le a b || le b a) = true) (l : List α) :
    (stableSort le l).Pairwise (fun x y => le x y = true) := by
  have h := @pairwise_stableSort α le (fun _ _ => True) trans total l
      (List.pairwise_iff_getElem.mpr (fun i j hi hj hij => trivial))
  exact h.imp (fun hab => hab.1)

/- ---------------------------------------------------------------------------
   Lemmas about the trend pipeline. -/

/-- The guarded reportsByDate fold groups exactly the records that carry a
    summary, by day key. -/
theorem trendGroups_eq (rs : List AllureReportData) :
    trendGroups rs =
      groupByKey (fun r => dateKey r.lastUpdated)
        (rs.filter (fun r => r.summary.isSome)) := by
  unfold trendGroups groupByKey
  exact foldl_guard_filter _ _ rs []

/-- The aggregatedResults fold computes the three sums. -/
theorem foldl_aggStep (l : List AllureReportData) :
    ∀ acc : Agg,
      l.foldl aggStep acc =
        ⟨acc.total + sumTotals l, acc.passed + sumPassed l, acc.failed + sumFailed l⟩ := by
  induction l with
  | nil =>
    intro acc
    cases acc
    simp [sumTotals, sumPassed, sumFailed]
  | cons r l ih =>
    intro acc
    simp only [List.foldl_cons]
    rw [ih]
    cases hsum : r.summary with
    | none =>
      simp [aggStep, hsum, sumTotals, sumPassed, sumFailed]
    | some s =>
      simp [aggStep, hsum, sumTotals, sumPassed, sumFailed, Nat.add_assoc]

/-- The aggregatedResults reduce equals the three sums. -/
theorem aggregateReports_eq (l : List AllureReportData) :
    aggregateReports l = ⟨sumTotals l, sumPassed l, sumFailed l⟩ := by
  have := foldl_aggStep l ⟨0, 0, 0⟩
  simpa [aggregateReports] using this

/-- Every entry of the sorted day grouping holds exactly the records with a
    summary on its day. -/
theorem trend_entry_eq_dayRecords {rs : List AllureReportData}
    {e : Nat × List AllureReportData}
    (he : e ∈ stableSort (fun p q => decide (p.1 ≤ q.1)) (trendGroups rs)) :
    e.2 = dayRecords rs e.1 := by
  have hm := (mem_stableSort _ _ _).mp he
  rw [trendGroups_eq] at hm
  obtain ⟨k, vs⟩ := e
  have h2 := entry_eq_filter_groupByKey _ _ _ _ hm
  rw [h2]
  rw [dayRecords, List.filter_filter]
  refine List.filter_congr ?_
  intro r _
  simp [Bool.and_comm]

/- ---------------------------------------------------------------------------
   Lemmas about the flakiness pipeline. -/

/-- The mutation body keeps the test name. -/
theorem updateStat_testName (t : TestTuple) (st : FlakyAcc) :
    (updateStat t st).testName = st.testName := by
  unfold updateStat
  by_cases h : isFailOutcome t.status <;> simp [h]

/-- The mutation body keeps the job name. -/
theorem updateStat_jobName (t : TestTuple) (st : FlakyAcc) :
    (updateStat t st).jobName = st.jobName := by
  unfold updateStat
  by_cases h : isFailOutcome t.status <;> simp [h]

/-- The mutation body bumps totalRuns by one. -/
theorem updateStat_totalRuns (t : TestTuple) (st : FlakyAcc) :
    (updateStat t st).totalRuns = st.totalRuns + 1 := by
  unfold updateStat
  by_cases h : isFailOutcome t.status <;> simp [h]

/-- The mutation body bumps failures exactly on a failing outcome. -/
theorem updateStat_failures (t : TestTuple) (st : FlakyAcc) :
    (updateStat t st).failures =
      st.failures + (if isFailOutcome t.status then 1 else 0) := by
  unfold updateStat
  by_cases h : isFailOutcome t.status <;> simp [h]

/-- Folding the mutation body keeps the test name. -/
theorem statFold_testName (occs : List TestTuple) :
    ∀ st : FlakyAcc, (statFold st occs).testName = st.testName := by
  induction occs with
  | nil => intro st; rfl
  | cons t occs ih =>
    intro st
    have : statFold st (t :: occs) = statFold (updateStat t st) occs := rfl
    rw [this, ih, updateStat_testName]

/-- Folding the mutation body keeps the job name. -/
theorem statFold_jobName (occs : List TestTuple) :
    ∀ st : FlakyAcc, (statFold st occs).jobName = st.jobName := by
  induction occs with
  | nil => intro st; rfl
  | cons t occs ih =>
    intro st
    have : statFold st (t :: occs) = statFold (updateStat t st) occs := rfl
    rw [this, ih, updateStat_jobName]

/-- Folding the mutation body adds the number of tuples to totalRuns. -/
theorem statFold_totalRuns (occs : List TestTuple) :
    ∀ st : FlakyAcc, (statFold st occs).totalRuns = st.totalRuns + occs.length := by
  induction occs with
  | nil => intro st; rfl
  | cons t occs ih =>
    intro st
    have : statFold st (t :: occs) = statFold (updateStat t st) occs := rfl
    rw [this, ih, updateStat_totalRuns]
    simp [Nat.add_assoc, Nat.add_comm]
    omega

/-- Folding the mutation body adds the number of failing tuples to failures. -/
theorem statFold_failures (occs : List TestTuple) :
    ∀ st : FlakyAcc,
      (statFold st occs).failures =
        st.failures + (occs.filter (fun t => isFailOutcome t.status)).length := by
  induction occs with
  | nil => intro st; rfl
  | cons t occs ih =>
    intro st
    have h0 : statFold st (t :: occs) = statFold (updateStat t st) occs := rfl
    rw [h0, ih, updateStat_failures]
    by_cases h : isFailOutcome t.status <;> simp [List.filter_cons, h] <;> omega

/-- findStat hits a matching head. -/
theorem findStat_cons_eq (n : String) (st : FlakyAcc) (rest : List FlakyAcc)
    (h : st.testName = n) : findStat n (st :: rest) = some st := by
  simp [findStat, List.find?_cons, h]

/-- findStat skips a non-matching head. -/
theorem findStat_cons_ne (n : String) (st : FlakyAcc) (rest : List FlakyAcc)
    (h : ¬(st.testName = n)) : findStat n (st :: rest) = findStat n rest := by
  simp [findStat, List.find?_cons, h]

/-- Lookup after one flaky-upsert step. -/
theorem findStat_flakyUpsert (t : TestTuple) (acc : List FlakyAcc) (n : String) :
    findStat n (flakyUpsert t acc) =
      if n = t.testName then
        match findStat n acc with
        | some st => some (updateStat t st)
        | none => some (updateStat t (initStat t))
      else findStat n acc := by
  induction acc with
  | nil =>
    by_cases h : n = t.testName
    · rw [if_pos h]
      exact findStat_cons_eq _ _ _ (by rw [updateStat_testName]; exact h.symm)
    · rw [if_neg h]
      exact findStat_cons_ne _ _ _ (by rw [updateStat_testName]; exact fun hh => h hh.symm)
  | cons st rest ih =>
    by_cases h1 : st.testName = t.testName
    · rw [flakyUpsert, if_pos h1]
      by_cases h2 : n = t.testName
      · rw [if_pos h2]
        have ha : st.testName = n := h1.trans h2.symm
        rw [findStat_cons_eq _ _ _ ha,
          findStat_cons_eq _ _ _ (by rw [updateStat_testName]; exact ha)]
      · rw [if_neg h2]
        have ha : ¬(st.testName = n) := fun hh => h2 (hh.symm.trans h1)
        rw [findStat_cons_ne _ _ _ (by rw [updateStat_testName]; exact ha),
          findStat_cons_ne _ _ _ ha]
    · rw [flakyUpsert, if_neg h1]
      by_cases h3 : st.testName = n
      · have h4 : ¬(n = t.testName) := fun hh => h1 (h3.trans hh)
        rw [if_neg h4, findStat_cons_eq _ _ _ h3, findStat_cons_eq _ _ _ h3]
      · rw [findStat_cons_ne _ _ _ h3, ih]
        by_cases h2 : n = t.testName
        · rw [if_pos h2, if_pos h2, findStat_cons_ne _ _ _ h3]
        · rw [if_neg h2, if_neg h2, findStat_cons_ne _ _ _ h3]

/-- Lookup in the flaky-stats fold, generalized over the accumulator. -/
theorem findStat_foldl (ts : List TestTuple) :
    ∀ (acc : List FlakyAcc) (n : String),
      findStat n (ts.foldl (fun acc t => flakyUpsert t acc) acc) =
        match findStat n acc with
        | some st => some (statFold st (ts.filter (fun t => decide (t.testName = n))))
        | none =>
          match ts.filter (fun t => decide (t.testName = n)) with
          | [] => none
          | t0 :: rest => some (statFold (updateStat t0 (initStat t0)) rest) := by
  induction ts with
  | nil =>
    intro acc n
    cases h : findStat n acc <;> simp [h, statFold]
  | cons t ts ih =>
    intro acc n
    simp only [List.foldl_cons]
    rw [ih, findStat_flakyUpsert]
    by_cases h : n = t.testName
    · rw [if_pos h]
      have hft : (decide (t.testName = n)) = true := by simp [h]
      rw [List.filter_cons, if_pos hft]
      cases hacc : findStat n acc with
      | some st =>
        show some (statFold (updateStat t st) (ts.filter (fun t => decide (t.testName = n)))) =
          some (statFold st (t :: ts.filter (fun t => decide (t.testName = n))))
        rfl
      | none => rfl
    · rw [if_neg h]
      have hft : ¬((decide (t.testName = n)) = true) := by
        simp
        intro hh
        exact h hh.symm
      rw [List.filter_cons, if_neg hft]

/-- Lookup in the flaky stats of the flattened tuples: the stats object of a
    name is the mutation body folded over the occurrences of that name. -/
theorem flakyStats_find (ts : List TestTuple) (n : String) :
    findStat n (flakyStats ts) =
      match ts.filter (fun t => decide (t.testName = n)) with
      | [] => none
      | t0 :: rest => some (statFold (updateStat t0 (initStat t0)) rest) := by
  have h := findStat_foldl ts [] n
  have h0 : findStat n ([] : List FlakyAcc) = none := rfl
  rw [h0] at h
  exact h

/-- findStat locates any member of a stats list with duplicate-free names. -/
theorem findStat_eq_of_mem (acc : List FlakyAcc)
    (h : (acc.map (fun st => st.testName)).Nodup) (st : FlakyAcc) (hm : st ∈ acc) :
    findStat st.testName acc = some st := by
  induction acc with
  | nil => simp at hm
  | cons st0 rest ih =>
    simp only [List.map_cons, List.nodup_cons] at h
    rcases List.mem_cons.mp hm with hm1 | hm1
    · rw [← hm1]
      exact findStat_cons_eq _ _ _ rfl
    · have hne : ¬(st0.testName = st.testName) := by
        intro hh
        exact h.1 (hh ▸ List.mem_map_of_mem (fun s => s.testName) hm1)
      rw [findStat_cons_ne _ _ _ hne]
      exact ih h.2 hm1

/-- Stats fields of any member of the flaky stats list: runs and failures
    are counted over all occurrences of its name, and the job name is that
    of the first occurrence. -/
theorem mem_flakyStats_fields (ts : List TestTuple) (st : FlakyAcc)
    (hnd : ((flakyStats ts).map (fun st => st.testName)).Nodup)
    (hm : st ∈ flakyStats ts) :
    st.totalRuns = runsOf ts st.testName ∧
    st.failures = failsOf ts st.testName ∧
    (ts.find? (fun t => decide (t.testName = st.testName))).map (fun t => t.jobName) =
      some st.jobName := by
  have hf := findStat_eq_of_mem (flakyStats ts) hnd st hm
  rw [flakyStats_find ts st.testName] at hf
  cases hfl : ts.filter (fun t => decide (t.testName = st.testName)) with
  | nil => rw [hfl] at hf; exact absurd hf (by simp)
  | cons t0 rest =>
    rw [hfl] at hf
    have hst : statFold (updateStat t0 (initStat t0)) rest = st := by
      simpa using hf
    have hruns : st.totalRuns = runsOf ts st.testName := by
      have hTR := statFold_totalRuns rest (updateStat t0 (initStat t0))
      rw [hst, updateStat_totalRuns] at hTR
      have hlen : runsOf ts st.testName = (t0 :: rest).length := by rw [runsOf, hfl]
      rw [hTR, hlen]
      simp [initStat]
      omega
    have hjob : (ts.find? (fun t => decide (t.testName = st.testName))).map
        (fun t => t.jobName) = some st.jobName := by
      have hhead : ts.find? (fun t => decide (t.testName = st.testName)) = some t0 := by
        rw [← List.filter_head? (fun t => decide (t.testName = st.testName)) ts, hfl]
        rfl
      have hJN := statFold_jobName rest (updateStat t0 (initStat t0))
      rw [hst, updateStat_jobName] at hJN
      rw [hhead, hJN]
      rfl
    have hfails : st.failures = failsOf ts st.testName := by
      have hFL := statFold_failures rest (updateStat t0 (initStat t0))
      rw [hst, updateStat_failures] at hFL
      have h1 : failsOf ts st.testName =
          ((ts.filter (fun t => decide (t.testName = st.testName))).filter
            (fun t => isFailOutcome t.status)).length := by
        rw [List.filter_filter, failsOf]
        congr 1
        refine List.filter_congr ?_
        intro t _
        simp [Bool.and_comm]
      rw [hFL, h1, hfl]
      by_cases hfo : isFailOutcome t0.status
      · rw [List.filter_cons_of_pos (by simpa using hfo)]
        simp [initStat, hfo]
        omega
      · rw [List.filter_cons_of_neg (by simpa using hfo)]
        simp [initStat, hfo]
    exact ⟨hruns, hfails, hjob⟩

/-- One flaky-upsert step leaves the name list unchanged for a known name
    and appends a new name at the end. -/
theorem flakyUpsert_names (t : TestTuple) (acc : List FlakyAcc) :
    (flakyUpsert t acc).map (fun st => st.testName) =
      if t.testName ∈ acc.map (fun st => st.testName) then
        acc.map (fun st => st.testName)
      else acc.map (fun st => st.testName) ++ [t.testName] := by
  induction acc with
  | nil => simp [flakyUpsert, updateStat_testName, initStat]
  | cons st rest ih =>
    by_cases h1 : st.testName = t.testName
    · rw [flakyUpsert, if_pos h1]
      have hmem : t.testName ∈ (st :: rest).map (fun st => st.testName) := by
        simp [h1.symm]
      rw [if_pos hmem]
      simp [updateStat_testName, h1]
    · rw [flakyUpsert, if_neg h1]
      by_cases h2 : t.testName ∈ rest.map (fun st => st.testName)
      · have hmem : t.testName ∈ (st :: rest).map (fun st => st.testName) := by
          simp [h2]
        rw [if_pos hmem]
        simp only [List.map_cons]
        rw [ih, if_pos h2]
      · have hmem : ¬(t.testName ∈ (st :: rest).map (fun st => st.testName)) := by
          simp only [List.map_cons, List.mem_cons]
          push_neg
          exact ⟨fun hh => h1 hh.symm, h2⟩
        rw [if_neg hmem]
        simp only [List.map_cons]
        rw [ih, if_neg h2]
        rfl

/-- dedupSeen only depends on the membership of the seen set. -/
theorem dedupSeen_congr (l : List String) :
    ∀ s1 s2 : List String, (∀ x, x ∈ s1 ↔ x ∈ s2) → dedupSeen s1 l = dedupSeen s2 l := by
  induction l with
  | nil => intro s1 s2 _; rfl
  | cons n ns ih =>
    intro s1 s2 hmem
    by_cases h : n ∈ s1
    · rw [dedupSeen, if_pos h, dedupSeen, if_pos ((hmem n).mp h)]
      exact ih s1 s2 hmem
    · rw [dedupSeen, if_neg h, dedupSeen, if_neg (fun hh => h ((hmem n).mpr hh))]
      refine congrArg (n :: ·) ?_
      refine ih (n :: s1) (n :: s2) ?_
      intro x
      simp [hmem x]

/-- The names produced by the flaky fold: the accumulated names followed by
    the first occurrences of the new names, in order. -/
theorem foldl_flaky_names (ts : List TestTuple) :
    ∀ acc : List FlakyAcc,
      (ts.foldl (fun acc t => flakyUpsert t acc) acc).map (fun st => st.testName) =
        acc.map (fun st => st.testName) ++
          dedupSeen (acc.map (fun st => st.testName)) (ts.map (fun t => t.testName)) := by
  induction ts with
  | nil => intro acc; simp [dedupSeen]
  | cons t ts ih =>
    intro acc
    simp only [List.foldl_cons, List.map_cons]
    rw [ih]
    by_cases h : t.testName ∈ acc.map (fun st => st.testName)
    · rw [flakyUpsert_names, if_pos h]
      rw [dedupSeen, if_pos h]
    · rw [flakyUpsert_names, if_neg h]
      rw [dedupSeen, if_neg h]
      rw [List.append_assoc]
      refine congrArg (acc.map (fun st => st.testName) ++ ·) ?_
      have hcg2 := dedupSeen_congr (ts.map (fun t => t.testName))
          (acc.map (fun st => st.testName) ++ [t.testName])
          (t.testName :: acc.map (fun st => st.testName))
          (by
            intro x
            constructor
            · intro hx
              rcases List.mem_append.mp hx with hx | hx
              · exact List.mem_cons_of_mem _ hx
              · simp only [List.mem_singleton] at hx
                exact hx ▸ List.mem_cons_self _ _
            · intro hx
              rcases List.mem_cons.mp hx with hx | hx
              · exact List.mem_append.mpr (Or.inr (by simp [hx]))
              · exact List.mem_append.mpr (Or.inl hx))
      rw [hcg2]
      rfl

/-- The names of the flaky stats are the flattened names deduplicated to
    first occurrences. -/
theorem flakyStats_names (ts : List TestTuple) :
    (flakyStats ts).map (fun st => st.testName) =
      dedupSeen [] (ts.map (fun t => t.testName)) := by
  have := foldl_flaky_names ts []
  simpa [flakyStats] using this

/-- Membership in dedupSeen. -/
theorem mem_dedupSeen (l : List String) :
    ∀ (seen : List String) (x : String),
      x ∈ dedupSeen seen l ↔ x ∈ l ∧ x ∉ seen := by
  induction l with
  | nil => intro seen x; simp [dedupSeen]
  | cons n ns ih =>
    intro seen x
    by_cases h : n ∈ seen
    · rw [dedupSeen, if_pos h, ih]
      constructor
      · rintro ⟨h1, h2⟩
        exact ⟨List.mem_cons_of_mem _ h1, h2⟩
      · rintro ⟨h1, h2⟩
        rcases List.mem_cons.mp h1 with h1 | h1
        · exact absurd (h1 ▸ h) h2
        · exact ⟨h1, h2⟩
    · rw [dedupSeen, if_neg h]
      constructor
      · intro hx
        rcases List.mem_cons.mp hx with hx | hx
        · exact ⟨hx ▸ List.mem_cons_self n ns, hx ▸ h⟩
        · have := (ih (n :: seen) x).mp hx
          refine ⟨List.mem_cons_of_mem _ this.1, fun hs => this.2 (List.mem_cons_of_mem _ hs)⟩
      · rintro ⟨h1, h2⟩
        by_cases hxn : x = n
        · exact hxn ▸ List.mem_cons_self _ _
        · rcases List.mem_cons.mp h1 with h1 | h1
          · exact absurd h1 hxn
          · refine List.mem_cons_of_mem _ ((ih (n :: seen) x).mpr ⟨h1, ?_⟩)
            intro hs
            rcases List.mem_cons.mp hs with hs | hs
            · exact hxn hs
            · exact h2 hs

/-- dedupSeen produces a duplicate-free list. -/
theorem nodup_dedupSeen (l : List String) :
    ∀ seen : List String, (dedupSeen seen l).Nodup := by
  induction l with
  | nil => intro seen; simp [dedupSeen]
  | cons n ns ih =>
    intro seen
    by_cases h : n ∈ seen
    · rw [dedupSeen, if_pos h]
      exact ih seen
    · rw [dedupSeen, if_neg h]
      refine List.nodup_cons.mpr ⟨?_, ih (n :: seen)⟩
      intro hmem
      exact ((mem_dedupSeen ns (n :: seen) n).mp hmem).2 (List.mem_cons_self _ _)

/-- dedupSeen lists names in the order of their first occurrence. -/
theorem pairwise_findIdx_dedupSeen (l : List String) :
    ∀ seen : List String,
      (dedupSeen seen l).Pairwise
        (fun a b => l.findIdx (fun x => decide (x = a)) <
          l.findIdx (fun x => decide (x = b))) := by
  induction l with
  | nil => intro seen; simp [dedupSeen]
  | cons n ns ih =>
    intro seen
    by_cases h : n ∈ seen
    · rw [dedupSeen, if_pos h]
      refine (ih seen).imp_of_mem ?_
      intro a b ha hb hab
      have hane : ¬(n = a) := by
        intro hh
        exact ((mem_dedupSeen ns seen a).mp ha).2 (hh ▸ h)
      have hbne : ¬(n = b) := by
        intro hh
        exact ((mem_dedupSeen ns seen b).mp hb).2 (hh ▸ h)
      rw [List.findIdx_cons, List.findIdx_cons]
      simp only [decide_eq_false hane, decide_eq_false hbne, cond_false]
      omega
    · rw [dedupSeen, if_neg h]
      refine List.pairwise_cons.mpr ⟨?_, ?_⟩
      · intro b hb
        have hbne : ¬(n = b) := by
          intro hh
          exact ((mem_dedupSeen ns (n :: seen) b).mp hb).2 (hh ▸ List.mem_cons_self _ _)
        rw [List.findIdx_cons, List.findIdx_cons]
        simp only [decide_eq_false hbne, cond_false, decide_true_eq_true]
        simp
      · refine (ih (n :: seen)).imp_of_mem ?_
        intro a b ha hb hab
        have hane : ¬(n = a) := by
          intro hh
          exact ((mem_dedupSeen ns (n :: seen) a).mp ha).2 (hh ▸ List.mem_cons_self _ _)
        have hbne : ¬(n = b) := by
          intro hh
          exact ((mem_dedupSeen ns (n :: seen) b).mp hb).2 (hh ▸ List.mem_cons_self _ _)
        rw [List.findIdx_cons, List.findIdx_cons]
        simp only [decide_eq_false hane, decide_eq_false hbne, cond_false]
        omega

/-- The flaky stats list is ordered by first occurrence of the test names. -/
theorem pairwise_firstOcc_flakyStats (ts : List TestTuple) :
    (flakyStats ts).Pairwise
      (fun s1 s2 => firstOccIdx ts s1.testName < firstOccIdx ts s2.testName) := by
  have h := pairwise_findIdx_dedupSeen (ts.map (fun t => t.testName)) []
  rw [← flakyStats_names] at h
  rw [List.pairwise_map] at h
  exact h

/-- The names of the flaky stats are duplicate-free. -/
theorem nodup_flakyStats_names (ts : List TestTuple) :
    ((flakyStats ts).map (fun st => st.testName)).Nodup := by
  rw [flakyStats_names]
  exact nodup_dedupSeen _ []

/- ---------------------------------------------------------------------------
   The computable rational wrappers agree with the field operations. -/

/-- qMul is multiplication on ℚ. -/
theorem qMul_eq (a b : ℚ) : qMul a b = a * b := by
  rw [qMul]
  conv_rhs => rw [← Rat.num_divInt_den a, ← Rat.num_divInt_den b]
  rw [Rat.divInt_mul_divInt']

/-- qDiv is division on ℚ. -/
theorem qDiv_eq (a b : ℚ) : qDiv a b = a / b := by
  rw [qDiv, Rat.div_def']

/-- Batteries Rat.floor is the floor of ℚ. -/
theorem ratFloor_eq (q : ℚ) : Rat.floor q = ⌊q⌋ := by
  rw [Rat.floor_def', ← Rat.floor_def]

/-- jsRound is the floor of q + 1/2 (round half up). -/
theorem jsRound_eq (q : ℚ) : jsRound q = ⌊q + 1/2⌋ := by
  rw [jsRound, ratFloor_eq]
  congr 1
  rw [Rat.divInt_eq_div]
  have hden : ((q.den : ℚ)) ≠ 0 := Nat.cast_ne_zero.mpr q.den_nz
  push_cast
  conv_rhs => rw [← Rat.num_div_den q]
  field_simp
  ring

/- ---------------------------------------------------------------------------
   Ordering of the trend entries. -/

/-- The day keys of the trend grouping are duplicate-free. -/
theorem nodup_trendGroups_keys (rs : List AllureReportData) :
    ((trendGroups rs).map Prod.fst).Nodup := by
  rw [trendGroups_eq]
  exact nodup_keys_foldl _ _ [] (by simp)

/-- The sorted trend entries have strictly increasing day keys. -/
theorem sorted_trend_entries (rs : List AllureReportData) :
    (stableSort (fun p q => decide (p.1 ≤ q.1)) (trendGroups rs)).Pairwise
      (fun p q => p.1 < q.1) := by
  have htrans : ∀ p q r : Nat × List AllureReportData,
      decide (p.1 ≤ q.1) = true → decide (q.1 ≤ r.1) = true →
        decide (p.1 ≤ r.1) = true := by
    intro p q r h1 h2
    simp only [decide_eq_true_eq] at *
    omega
  have htotal : ∀ p q : Nat × List AllureReportData,
      (decide (p.1 ≤ q.1) || decide (q.1 ≤ p.1)) = true := by
    intro p q
    simpa using Nat.le_total p.1 q.1
  have hs := sorted_stableSort htrans htotal (trendGroups rs)
  have hperm := stableSort_perm (fun p q : Nat × List AllureReportData =>
    decide (p.1 ≤ q.1)) (trendGroups rs)
  have hnd : ((stableSort (fun p q : Nat × List AllureReportData =>
      decide (p.1 ≤ q.1)) (trendGroups rs)).map Prod.fst).Nodup :=
    (hperm.map Prod.fst).nodup_iff.mpr (nodup_trendGroups_keys rs)
  have hne := List.pairwise_map.mp hnd
  refine (hs.and hne).imp ?_
  rintro p q ⟨h1, h2⟩
  simp only [decide_eq_true_eq] at h1
  omega

/-- Field values of a trend point in terms of its own totals. -/
theorem mkTrendPoint_successRate (d : Nat) (l : List AllureReportData) :
    ((mkTrendPoint d l).totalTests = 0 → (mkTrendPoint d l).successRate = 0)
  ∧ ((mkTrendPoint d l).totalTests ≠ 0 →
      (mkTrendPoint d l).successRate =
        (jsRound (((mkTrendPoint d l).passedTests : ℚ) /
            ((mkTrendPoint d l).totalTests : ℚ) * 100 * 100) : ℚ) / 100) := by
  constructor
  · intro h0
    have h0' : (aggregateReports l).total = 0 := h0
    show qDiv ((jsRound (qMul (if (aggregateReports l).total > 0 then
        qMul (qDiv ((aggregateReports l).passed : ℚ) ((aggregateReports l).total : ℚ)) 100
        else 0) 100) : Int) : ℚ) 100 = 0
    rw [h0', if_neg (by omega)]
    decide
  · intro h0
    have hpos : (aggregateReports l).total > 0 := Nat.pos_of_ne_zero h0
    show qDiv ((jsRound (qMul (if (aggregateReports l).total > 0 then
        qMul (qDiv ((aggregateReports l).passed : ℚ) ((aggregateReports l).total : ℚ)) 100
        else 0) 100) : Int) : ℚ) 100 = _
    rw [if_pos hpos]
    simp only [qDiv_eq, qMul_eq]
    rfl

/-- C5 (amended): the trend deriver groups only the records that carry a
    summary by the calendar day of their fetch timestamp; records lacking a
    summary are excluded from the grouping entirely, so a day all of whose
    records lack a summary produces no point.  For each remaining day it
    sums total/passed/failed over that day's records and emits exactly one
    point per day, ordered ascending by date. -/
theorem trend_deriver_grouping (rs : List AllureReportData) :
    ((generateHistoricalTrendData rs).map (fun p => p.date)).Pairwise (· < ·)
  ∧ (∀ d : Nat,
      (∃ p ∈ generateHistoricalTrendData rs, p.date = d) ↔
        ∃ r ∈ rs, r.summary.isSome ∧ dateKey r.lastUpdated = d)
  ∧ (∀ p ∈ generateHistoricalTrendData rs,
      p.totalTests = sumTotals (dayRecords rs p.date)
    ∧ p.passedTests = sumPassed (dayRecords rs p.date)
    ∧ p.failedTests = sumFailed (dayRecords rs p.date)) := by
  refine ⟨?_, ?_, ?_⟩
  · have h1 : (generateHistoricalTrendData rs).map (fun p => p.date) =
        (stableSort (fun p q => decide (p.1 ≤ q.1)) (trendGroups rs)).map
          (fun e => e.1) := by
      rw [generateHistoricalTrendData, List.map_map]
      rfl
    rw [h1, List.pairwise_map]
    exact sorted_trend_entries rs
  · intro d
    constructor
    · rintro ⟨p, hp, rfl⟩
      rw [generateHistoricalTrendData] at hp
      obtain ⟨e, he, rfl⟩ := List.mem_map.mp hp
      have he2 := (mem_stableSort _ _ _).mp he
      have hk : e.1 ∈ (trendGroups rs).map Prod.fst :=
        List.mem_map_of_mem Prod.fst he2
      rw [trendGroups_eq] at hk
      rcases (mem_keys_foldl _ _ [] _).mp hk with h | h
      · simp at h
      · obtain ⟨a, ha, hka⟩ := h
        rw [List.mem_filter] at ha
        exact ⟨a, ha.1, by simpa using ha.2, hka⟩
    · rintro ⟨r, hr, hsum, hdk⟩
      have hk : d ∈ (trendGroups rs).map Prod.fst := by
        rw [trendGroups_eq]
        refine (mem_keys_foldl _ _ [] _).mpr (Or.inr ⟨r, ?_, hdk⟩)
        rw [List.mem_filter]
        exact ⟨hr, by simpa using hsum⟩
      obtain ⟨e, he, hke⟩ := List.mem_map.mp hk
      refine ⟨mkTrendPoint e.1 e.2, ?_, hke⟩
      rw [generateHistoricalTrendData]
      exact List.mem_map_of_mem _ ((mem_stableSort _ _ _).mpr he)
  · intro p hp
    rw [generateHistoricalTrendData] at hp
    obtain ⟨e, he, rfl⟩ := List.mem_map.mp hp
    have hday := trend_entry_eq_dayRecords he
    have hagg := aggregateReports_eq e.2
    refine ⟨?_, ?_, ?_⟩
    · show (aggregateReports e.2).total = sumTotals (dayRecords rs e.1)
      rw [hagg, hday]
    · show (aggregateReports e.2).passed = sumPassed (dayRecords rs e.1)
      rw [hagg, hday]
    · show (aggregateReports e.2).failed = sumFailed (dayRecords rs e.1)
      rw [hagg, hday]

/-- C5 witness: on a pair of records (one without a summary on day 3, one
    with a 7/5/2 summary on day 2) the derived point for day 2 is present
    and carries the day sums. -/
theorem trend_deriver_grouping_witness :
    trendPoint75 ∈ generateHistoricalTrendData [trendCexRecord, trendRecord75]
  ∧ trendPoint75.totalTests =
      sumTotals (dayRecords [trendCexRecord, trendRecord75] trendPoint75.date) :=
  ⟨by decide,
    ((trend_deriver_grouping [trendCexRecord, trendRecord75]).2.2 trendPoint75
      (by decide)).1⟩

/-- C5 counterexample: a record lacking a summary does not participate in
    the grouping; its day yields no trend point at all, where the claim
    predicts one point with zero counts. -/
theorem trend_no_summary_cex :
    generateHistoricalTrendData [trendCexRecord] = []
  ∧ trendCexRecord.summary = none
  ∧ dateKey trendCexRecord.lastUpdated = 3 :=
  ⟨by decide, rfl, by decide⟩

/-- C7: per day bucket, successRatePercent is passed/total×100 rounded (not
    truncated) to 2 decimals, and 0 when total is 0. -/
theorem trend_success_rate_rounding (rs : List AllureReportData)
    (p : HistoricalTrend) (hp : p ∈ generateHistoricalTrendData rs) :
    (p.totalTests = 0 → p.successRate = 0)
  ∧ (p.totalTests ≠ 0 →
      p.successRate =
        (jsRound ((p.passedTests : ℚ) / (p.totalTests : ℚ) * 100 * 100) : ℚ) / 100) := by
  rw [generateHistoricalTrendData] at hp
  obtain ⟨e, he, rfl⟩ := List.mem_map.mp hp
  exact mkTrendPoint_successRate e.1 e.2

/-- C7 witness: the day with total 7 and passed 5 yields 71.43. -/
theorem trend_success_rate_rounding_witness :
    trendPoint75 ∈ generateHistoricalTrendData [trendRecord75]
  ∧ trendPoint75.successRate =
      (jsRound ((trendPoint75.passedTests : ℚ) /
          (trendPoint75.totalTests : ℚ) * 100 * 100) : ℚ) / 100
  ∧ trendPoint75.successRate = Rat.divInt 7143 100 :=
  ⟨by decide,
    (trend_success_rate_rounding [trendRecord75] trendPoint75 (by decide)).2
      (by decide),
    by decide⟩

/-- Fields of any entry of the flakiness output: failing-run filter, run and
    failure counts over all records, and the job name of the first occurrence. -/
theorem flaky_entry_fields (rs : List AllureReportData) (e : FlakyTest)
    (he : e ∈ generateFlakyTestsData rs) :
    0 < failsOf (testResults rs) e.testName
  ∧ e.totalRuns = runsOf (testResults rs) e.testName
  ∧ e.failureRate = (failsOf (testResults rs) e.testName : ℚ) /
      (runsOf (testResults rs) e.testName : ℚ) * 100
  ∧ ((testResults rs).find? (fun t => decide (t.testName = e.testName))).map
      (fun t => t.jobName) = some e.jobName := by
  rw [generateFlakyTestsData] at he
  have he2 := (List.take_sublist 10 _).subset he
  rw [mem_stableSort] at he2
  obtain ⟨st, hst, rfl⟩ := List.mem_map.mp he2
  rw [List.mem_filter] at hst
  obtain ⟨hstm, hfail⟩ := hst
  have hfail' : 0 < st.failures := by simpa using hfail
  have hf := mem_flakyStats_fields (testResults rs) st (nodup_flakyStats_names _) hstm
  refine ⟨?_, ?_, ?_, ?_⟩
  · show 0 < failsOf (testResults rs) st.testName
    rw [← hf.2.1]
    exact hfail'
  · exact hf.1
  · show qMul (qDiv (st.failures : ℚ) (st.totalRuns : ℚ)) 100 = _
    rw [qMul_eq, qDiv_eq, hf.1, hf.2.1]
    exact rfl
  · exact hf.2.2

/-- C6 (amended): the flakiness deriver keeps only tests with at least one
    failing run, computes each failure rate as failing runs over total runs
    times 100, sorts descending by failure rate with ties keeping the order
    of the first occurrences of the test names (stable sort, no further
    tie-break), and returns at most the first 10 entries; a failing test is
    only ever dropped by that truncation. -/
theorem flaky_deriver_ranking (rs : List AllureReportData) :
    (generateFlakyTestsData rs).length ≤ 10
  ∧ (∀ e ∈ generateFlakyTestsData rs,
      0 < failsOf (testResults rs) e.testName
    ∧ e.totalRuns = runsOf (testResults rs) e.testName
    ∧ e.failureRate = (failsOf (testResults rs) e.testName : ℚ) /
        (runsOf (testResults rs) e.testName : ℚ) * 100)
  ∧ (generateFlakyTestsData rs).Pairwise
      (fun a b => b.failureRate ≤ a.failureRate
        ∧ (a.failureRate ≤ b.failureRate →
            firstOccIdx (testResults rs) a.testName <
              firstOccIdx (testResults rs) b.testName))
  ∧ (∀ n : String, 0 < failsOf (testResults rs) n →
      (generateFlakyTestsData rs).length = 10 ∨
        ∃ e ∈ generateFlakyTestsData rs, e.testName = n) := by
  refine ⟨?_, ?_, ?_, ?_⟩
  · rw [generateFlakyTestsData, List.length_take]
    exact inf_le_left
  · intro e he
    obtain ⟨h1, h2, h3, _⟩ := flaky_entry_fields rs e he
    exact ⟨h1, h2, h3⟩
  · have hstats := pairwise_firstOcc_flakyStats (testResults rs)
    have hfilter : ((flakyStats (testResults rs)).filter
        (fun st => st.failures > 0)).Pairwise
        (fun s1 s2 => firstOccIdx (testResults rs) s1.testName <
          firstOccIdx (testResults rs) s2.testName) :=
      List.Pairwise.sublist (List.filter_sublist _) hstats
    have hentries : (((flakyStats (testResults rs)).filter
        (fun st => st.failures > 0)).map mkFlakyEntry).Pairwise
        (fun a b => firstOccIdx (testResults rs) a.testName <
          firstOccIdx (testResults rs) b.testName) := by
      rw [List.pairwise_map]
      exact hfilter
    have htrans : ∀ a b c : FlakyTest,
        decide (b.failureRate ≤ a.failureRate) = true →
        decide (c.failureRate ≤ b.failureRate) = true →
        decide (c.failureRate ≤ a.failureRate) = true := by
      intro a b c h1 h2
      simp only [decide_eq_true_eq] at *
      exact le_trans h2 h1
    have htotal : ∀ a b : FlakyTest,
        (decide (b.failureRate ≤ a.failureRate) ||
          decide (a.failureRate ≤ b.failureRate)) = true := by
      intro a b
      simpa using le_total b.failureRate a.failureRate
    have hsorted := pairwise_stableSort htrans htotal _ hentries
    rw [generateFlakyTestsData]
    refine List.Pairwise.sublist (List.take_sublist _ _) (hsorted.imp ?_)
    rintro a b ⟨h1, h2⟩
    simp only [decide_eq_true_eq] at h1
    refine ⟨h1, ?_⟩
    intro hab
    exact h2 (by simpa using hab)
  · intro n hn
    have hex : ∃ t ∈ testResults rs,
        (decide (t.testName = n) && isFailOutcome t.status) = true := by
      by_contra hco
      push_neg at hco
      have hz : (testResults rs).filter
          (fun t => decide (t.testName = n) && isFailOutcome t.status) = [] := by
        rw [List.filter_eq_nil_iff]
        intro a ha
        exact fun hpa => (hco a ha) hpa
      rw [failsOf, hz] at hn
      simp at hn
    obtain ⟨t, htm, htp⟩ := hex
    rw [Bool.and_eq_true] at htp
    have htin : t ∈ (testResults rs).filter (fun t2 => decide (t2.testName = n)) :=
      List.mem_filter.mpr ⟨htm, htp.1⟩
    obtain ⟨t0, rest, hfl2⟩ : ∃ t0 rest,
        (testResults rs).filter (fun t2 => decide (t2.testName = n)) = t0 :: rest := by
      cases hc : (testResults rs).filter (fun t2 => decide (t2.testName = n)) with
      | nil => rw [hc] at htin; simp at htin
      | cons a b => exact ⟨a, b, rfl⟩
    have hfind := flakyStats_find (testResults rs) n
    rw [hfl2] at hfind
    have hmem : statFold (updateStat t0 (initStat t0)) rest ∈
        flakyStats (testResults rs) := by
      rw [findStat] at hfind
      exact List.mem_of_find?_eq_some hfind
    have ht0 : t0.testName = n := by
      have ht0m : t0 ∈ (testResults rs).filter (fun t2 => decide (t2.testName = n)) := by
        rw [hfl2]
        exact List.mem_cons_self _ _
      have := (List.mem_filter.mp ht0m).2
      simpa using this
    have hname : (statFold (updateStat t0 (initStat t0)) rest).testName = n := by
      rw [statFold_testName, updateStat_testName]
      exact ht0
    have hfields := mem_flakyStats_fields (testResults rs) _
      (nodup_flakyStats_names _) hmem
    have hfpos : 0 < (statFold (updateStat t0 (initStat t0)) rest).failures := by
      rw [hfields.2.1, hname]
      exact hn
    have hentm : mkFlakyEntry (statFold (updateStat t0 (initStat t0)) rest) ∈
        ((flakyStats (testResults rs)).filter (fun st => st.failures > 0)).map
          mkFlakyEntry :=
      List.mem_map_of_mem _ (List.mem_filter.mpr ⟨hmem, by simpa using hfpos⟩)
    have hsortm := (mem_stableSort
      (fun a b => decide (b.failureRate ≤ a.failureRate)) _ _).mpr hentm
    by_cases hlen : (stableSort (fun a b => decide (b.failureRate ≤ a.failureRate))
        (((flakyStats (testResults rs)).filter (fun st => st.failures > 0)).map
          mkFlakyEntry)).length ≤ 10
    · right
      refine ⟨mkFlakyEntry (statFold (updateStat t0 (initStat t0)) rest), ?_, hname⟩
      rw [generateFlakyTestsData, List.take_of_length_le hlen]
      exact hsortm
    · left
      rw [generateFlakyTestsData, List.length_take]
      omega

/-- C6 witness: tests A (3 runs, 1 failed), B (5 runs, 3 failed), C (2 runs,
    0 failed) yield the ranked list [B, A] with rates 60 and 100/3; C is
    excluded, and every entry satisfies the rate formula. -/
theorem flaky_deriver_ranking_witness :
    (generateFlakyTestsData rsABC).map (fun e => e.testName) = ["B", "A"]
  ∧ (generateFlakyTestsData rsABC).map (fun e => e.failureRate) =
      [Rat.divInt 60 1, Rat.divInt 100 3]
  ∧ (∀ e ∈ generateFlakyTestsData rsABC,
      0 < failsOf (testResults rsABC) e.testName
    ∧ e.totalRuns = runsOf (testResults rsABC) e.testName
    ∧ e.failureRate = (failsOf (testResults rsABC) e.testName : ℚ) /
        (runsOf (testResults rsABC) e.testName : ℚ) * 100) :=
  ⟨by decide, by decide, (flaky_deriver_ranking rsABC).2.1⟩

/-- C6 counterexample: two tests tied at rate 100 with different run counts
    keep their first-occurrence order ("z" with 1 run before "a" with 2
    runs), violating the claimed tie-break by descending total-run count and
    ascending name. -/
theorem flaky_tie_break_cex :
    (generateFlakyTestsData rsTie).map (fun e => e.testName) = ["z", "a"]
  ∧ (generateFlakyTestsData rsTie).map (fun e => e.totalRuns) = [1, 2]
  ∧ (generateFlakyTestsData rsTie).map (fun e => e.failureRate) =
      [Rat.divInt 100 1, Rat.divInt 100 1]
  ∧ ¬ claimC6OrderOk (generateFlakyTestsData rsTie) := by
  refine ⟨by decide, by decide, by decide, ?_⟩
  intro hcl
  rw [claimC6OrderOk] at hcl
  revert hcl
  decide

/-- C10: each flakiness entry merges all runs of its test name across jobs;
    the reported jobName is that of the first flattened outcome (hence the
    first record in input order) carrying the name, while runs and failures
    from all jobs are counted in totalRuns and in the failure rate. -/
theorem flaky_jobname_first_occurrence (rs : List AllureReportData)
    (e : FlakyTest) (he : e ∈ generateFlakyTestsData rs) :
    ((testResults rs).find? (fun t => decide (t.testName = e.testName))).map
        (fun t => t.jobName) = some e.jobName
  ∧ e.totalRuns = runsOf (testResults rs) e.testName
  ∧ e.failureRate = (failsOf (testResults rs) e.testName : ℚ) /
      (runsOf (testResults rs) e.testName : ℚ) * 100 := by
  obtain ⟨_, h2, h3, h4⟩ := flaky_entry_fields rs e he
  exact ⟨h4, h2, h3⟩

/-- C10 witness: test "t" runs in job j1 (passed) and job j2 (failed); the
    single entry carries jobName j1 (the first record) and both runs. -/
theorem flaky_jobname_first_occurrence_witness :
    (generateFlakyTestsData rsCrossJob).map (fun e => (e.testName, e.jobName)) =
      [("t", "j1")]
  ∧ ∃ e ∈ generateFlakyTestsData rsCrossJob,
      ((testResults rsCrossJob).find? (fun t => decide (t.testName = e.testName))).map
          (fun t => t.jobName) = some e.jobName
    ∧ e.totalRuns = runsOf (testResults rsCrossJob) e.testName := by
  refine ⟨by decide, ⟨"t", "j1", Rat.divInt 100 2, 2, 2⟩, by decide, ?_, ?_⟩
  · exact (flaky_jobname_first_occurrence rsCrossJob _ (by decide)).1
  · exact (flaky_jobname_first_occurrence rsCrossJob _ (by decide)).2.1

/-- C1: for a BuildConfig whose URL resolves, the fetched record has
    status error only if both reads failed (vacuously: the embedded fetcher
    never yields error, both helpers catch internally), and whenever at
    least one read succeeds the record has status ok, with summary absent
    exactly when the summary read failed and outcomes empty when the detail
    read failed. -/
theorem report_fetcher_read_failures (env : FetchEnv)
    (cfg : JenkinsBuildConfig) (j : String) (n : Int)
    (hres : parseBuildUrl cfg.buildUrl = some (j, n)) :
    ((getAllureReportData env cfg).status = RStatus.error →
      env.summaryRead j n = none ∧ env.resultsRead j n = none)
  ∧ ((env.summaryRead j n ≠ none ∨ env.resultsRead j n ≠ none) →
      (getAllureReportData env cfg).status = RStatus.success
    ∧ (env.summaryRead j n = none → (getAllureReportData env cfg).summary = none)
    ∧ (env.resultsRead j n = none → (getAllureReportData env cfg).results = [])) := by
  constructor
  · intro h
    exact absurd h (by simp [getAllureReportData])
  · intro _
    refine ⟨rfl, ?_, ?_⟩
    · intro hs
      show getAllureSummary env cfg.buildUrl = none
      rw [getAllureSummary, hres]
      exact hs
    · intro hr
      show getAllureResults env cfg.buildUrl = []
      rw [getAllureResults, hres]
      show (env.resultsRead j n).getD [] = []
      rw [hr]
      rfl

/-- C1 witness: summary read succeeds with 10/8/2, detail read fails; the
    record is ok with empty outcomes and summary absent only if its read
    failed. -/
theorem report_fetcher_read_failures_witness :
    envSummaryOnly.summaryRead "ui-tests" 42 ≠ none
  ∧ (getAllureReportData envSummaryOnly cfgUi).status = RStatus.success
  ∧ (envSummaryOnly.resultsRead "ui-tests" 42 = none →
      (getAllureReportData envSummaryOnly cfgUi).results = []) :=
  ⟨by decide,
    ((report_fetcher_read_failures envSummaryOnly cfgUi "ui-tests" 42
        (by decide)).2 (Or.inl (by decide))).1,
    ((report_fetcher_read_failures envSummaryOnly cfgUi "ui-tests" 42
        (by decide)).2 (Or.inl (by decide))).2.2⟩

/-- C2 counterexample: a config whose buildUrl does not resolve still yields
    a record with status ok (success), not error as the claim states: both
    read helpers catch the resolution failure internally and the dead catch
    branch of getAllureReportData never runs. -/
theorem resolver_failure_record_cex :
    parseBuildUrl cfgBad.buildUrl = none
  ∧ (getAllureReportData envAllFail cfgBad).status = RStatus.success
  ∧ ¬ (getAllureReportData envAllFail cfgBad).status = RStatus.error :=
  ⟨by decide, rfl, by decide⟩

/-- C2 (amended): for a BuildConfig whose buildUrl fails URL resolution, the
    record has status ok (success), no errorDetail, summary absent, outcomes
    empty, and reportUrl equal to the unresolved input URL. -/
theorem resolver_failure_record (env : FetchEnv) (cfg : JenkinsBuildConfig)
    (h : parseBuildUrl cfg.buildUrl = none) :
    (getAllureReportData env cfg).status = RStatus.success
  ∧ (getAllureReportData env cfg).errorMessage = none
  ∧ (getAllureReportData env cfg).summary = none
  ∧ (getAllureReportData env cfg).results = []
  ∧ (getAllureReportData env cfg).reportUrl = cfg.buildUrl := by
  refine ⟨rfl, rfl, ?_, ?_, ?_⟩
  · show getAllureSummary env cfg.buildUrl = none
    rw [getAllureSummary, h]
  · show getAllureResults env cfg.buildUrl = []
    rw [getAllureResults, h]
  · show getAllureReportUrl env cfg.buildUrl = cfg.buildUrl
    rw [getAllureReportUrl, h]

/-- C2 witness: the unresolvable config under the all-failing environment. -/
theorem resolver_failure_record_witness :
    parseBuildUrl cfgBad.buildUrl = none
  ∧ (getAllureReportData envAllFail cfgBad).status = RStatus.success
  ∧ (getAllureReportData envAllFail cfgBad).reportUrl = cfgBad.buildUrl :=
  ⟨by decide, (resolver_failure_record envAllFail cfgBad (by decide)).1,
    (resolver_failure_record envAllFail cfgBad (by decide)).2.2.2.2⟩

/-- C3: the batch aggregator returns exactly one record per input config, in
    input order; the record at every index is the fetch of the config at
    that index alone, so no failing build can prevent or displace the
    records of the others. -/
theorem batch_aggregator_order (env : FetchEnv)
    (cfgs : List JenkinsBuildConfig) :
    (getAllureReportsForBuilds env cfgs).length = cfgs.length
  ∧ ∀ i : Nat, (getAllureReportsForBuilds env cfgs)[i]? =
      (cfgs[i]?).map (getAllureReportData env) := by
  refine ⟨List.length_map _ _, ?_⟩
  intro i
  rw [getAllureReportsForBuilds, List.getElem?_map]

/-- C8: the three metrics derivers are pure functions of the record
    sequence: identical inputs give identical outputs (the embedding reads
    no state besides its argument). -/
theorem metrics_derivers_deterministic (rs1 rs2 : List AllureReportData)
    (h : rs1 = rs2) :
    generateHistoricalTrendData rs1 = generateHistoricalTrendData rs2
  ∧ generateFlakyTestsData rs1 = generateFlakyTestsData rs2
  ∧ generateEnvironmentMatrixData rs1 = generateEnvironmentMatrixData rs2 := by
  subst h
  exact ⟨rfl, rfl, rfl⟩

/-- C8 witness: the derivers applied twice to the A/B/C example agree. -/
theorem metrics_derivers_deterministic_witness :
    generateHistoricalTrendData rsABC = generateHistoricalTrendData rsABC
  ∧ generateFlakyTestsData rsABC = generateFlakyTestsData rsABC
  ∧ generateEnvironmentMatrixData rsABC = generateEnvironmentMatrixData rsABC :=
  metrics_derivers_deterministic rsABC rsABC rfl

/-- C9: for a resolvable BuildConfig the reportUrl of the record is computed
    purely from the resolved jobName, buildNumber and the configured base
    URL as base/job/jobName/buildNumber/allure/, for every outcome of the
    two reads (in particular when both fail). -/
theorem report_url_pure (env : FetchEnv) (cfg : JenkinsBuildConfig)
    (j : String) (n : Int) (h : parseBuildUrl cfg.buildUrl = some (j, n)) :
    (getAllureReportData env cfg).reportUrl =
      env.baseURL ++ "/job/" ++ encodeURIComponent j ++ "/" ++
        toString n ++ "/allure/" := by
  show getAllureReportUrl env cfg.buildUrl = _
  rw [getAllureReportUrl, h]

/-- C9 witness: with both reads failing, the record for ui-tests build 42
    still carries the derived report link. -/
theorem report_url_pure_witness :
    (getAllureReportData envAllFail cfgUi).reportUrl =
      envAllFail.baseURL ++ "/job/" ++ encodeURIComponent "ui-tests" ++ "/" ++
        toString (42 : Int) ++ "/allure/" :=
  report_url_pure envAllFail cfgUi "ui-tests" 42 (by decide)

/-- C4 counterexample: the resolver accepts the well-formed URL on host x
    whose path segments after "job" are the name "a" and the segment "-5",
    returning buildNumber -5, although "-5" does not parse as a non-negative
    integer, so the claimed success condition says the resolver must fail. -/
theorem url_resolver_cex :
    parseBuildUrl "http://x/job/a/-5/" = some ("a", -5)
  ∧ claimC4Holds "http://x/job/a/-5/" = false :=
  ⟨by decide, by decide⟩

/-- C4 (amended): the URL resolver succeeds exactly when the string parses
    as a URL whose path contains the segment "job", with at least two more
    segments after the first occurrence of "job", and ECMAScript parseInt
    recognizes an integer in the second segment after it (optional sign,
    optional hex prefix, at least one digit, trailing characters ignored);
    it then returns the segment immediately after that first "job" verbatim
    as jobName and the parseInt value (possibly negative) as buildNumber,
    and fails on every other string. -/
theorem url_resolver_characterization (s : String) (j : String) (n : Int) :
    parseBuildUrl s = some (j, n) ↔
      ∃ u, urlParse s = some u ∧
        ∃ i, i + 2 < (pathSegments u).length ∧
          (pathSegments u).getD i "" = "job" ∧
          (∀ k, k < i → (pathSegments u).getD k "" ≠ "job") ∧
          (pathSegments u).getD (i + 1) "" = j ∧
          jsParseInt ((pathSegments u).getD (i + 2) "") = some n := by
  constructor
  · intro h
    cases hu : urlParse s with
    | none =>
      rw [parseBuildUrl, hu] at h
      exact absurd h (by simp)
    | some u =>
      rw [parseBuildUrl] at h
      simp only [hu] at h
      refine ⟨u, rfl, ?_⟩
      cases hidx : (pathSegments u).findIdx? (fun p => p == "job") with
      | none =>
        simp only [hidx] at h
        exact absurd h (by simp)
      | some i =>
        simp only [hidx] at h
        by_cases hlen : i + 2 < (pathSegments u).length
        · rw [dif_pos hlen] at h
          obtain ⟨hi, hjob, hmin⟩ := List.findIdx?_eq_some_iff_getElem.mp hidx
          cases hpi : jsParseInt ((pathSegments u).get ⟨i + 2, hlen⟩) with
          | none =>
            simp only [hpi] at h
            exact absurd h (by simp)
          | some b =>
            simp only [hpi, Option.some.injEq, Prod.mk.injEq] at h
            obtain ⟨hj, hb⟩ := h
            refine ⟨i, hlen, ?_, ?_, ?_, ?_⟩
            · rw [List.getD_eq_getElem _ _ hi]
              exact eq_of_beq hjob
            · intro k hk
              have hk2 : k < (pathSegments u).length := by omega
              rw [List.getD_eq_getElem _ _ hk2]
              intro hcontra
              exact (hmin k hk) (by simp [hcontra])
            · rw [List.getD_eq_getElem _ _ (show i + 1 < _ by omega)]
              rw [← hj, List.get_eq_getElem]
            · rw [List.getD_eq_getElem _ _ hlen, ← hb, ← hpi, List.get_eq_getElem]
        · rw [dif_neg hlen] at h
          exact absurd h (by simp)
  · rintro ⟨u, hu, i, hlen, hjob, hmin, hj, hn⟩
    have hi : i < (pathSegments u).length := by omega
    have hi1 : i + 1 < (pathSegments u).length := by omega
    have hidx : (pathSegments u).findIdx? (fun p => p == "job") = some i := by
      refine List.findIdx?_eq_some_iff_getElem.mpr ⟨hi, ?_, ?_⟩
      · rw [← List.getD_eq_getElem _ "" hi, hjob]
        simp
      · intro k hki
        have hk2 : k < (pathSegments u).length := by omega
        intro hcontra
        exact hmin k hki (by rw [List.getD_eq_getElem _ "" hk2]; exact eq_of_beq hcontra)
    simp only [parseBuildUrl, hu, hidx]
    rw [dif_pos hlen]
    have hjv : (pathSegments u).get ⟨i + 1, by omega⟩ = j := by
      rw [List.get_eq_getElem, ← List.getD_eq_getElem _ "" hi1]
      exact hj
    have hnv : jsParseInt ((pathSegments u).get ⟨i + 2, hlen⟩) = some n := by
      rw [List.get_eq_getElem, ← List.getD_eq_getElem _ "" hlen]
      exact hn
    simp only [hnv, hjv]

/-- C4 witness: the characterization instantiated on the ui-tests build URL
    of the running example. -/
theorem url_resolver_characterization_witness :
    parseBuildUrl "http://jenkins/job/ui-tests/42/" = some ("ui-tests", 42) :=
  (url_resolver_characterization "http://jenkins/job/ui-tests/42/" "ui-tests" 42).mpr
    ⟨⟨"http", "jenkins", "/job/ui-tests/42/"⟩, by decide, 0, by decide, by decide,
      (fun k hk => absurd hk (Nat.not_lt_zero k)), by decide, by decide⟩
